import Mathlib

/-!
Verification of the iterative centrality core specified for the
Katz-centrality and PageRank notebooks, together with the small table
queries that the notebooks themselves define (best-vertex scan,
threshold filter, top-score query, sort).

The notebooks delegate the solver itself to an external library; the
spec (sections 3, 4, 6, 7) describes the solver that the notebooks are
thin wrappers around, so the solver definitions below are modelled from
the spec.  The table queries (find_top_scores, the best-vertex loop,
print_pagerank_threshold's filter, sort_values) are embedded from the
notebook source.
-/

/-- Modelled from the spec: section 3's Graph — n vertices indexed 0..n-1 and a
list of directed edges (source, destination, weight); weight defaults to 1.
The spec invariant that all endpoints lie in the range 0..n-1 is the
predicate Graph.WF below. -/
structure Graph where
  n : ℕ
  edges : List (ℕ × ℕ × ℚ)

/-- Spec section 3 invariant: vertex indices referenced by any edge lie in the
vertex range. -/
def Graph.WF (g : Graph) : Prop :=
  ∀ e ∈ g.edges, e.1 < g.n ∧ e.2.1 < g.n

instance (g : Graph) : Decidable g.WF := by
  unfold Graph.WF; infer_instance

/-- Modelled from the spec: section 4.1's out_degree — the number of edges
leaving a vertex (parallel edges each count). -/
def outDegree (g : Graph) (v : ℕ) : ℕ :=
  (g.edges.filter (fun e => e.1 == v)).length

/-- Modelled from the spec: section 4.2's max_out_degree helper (the notebook
computes it as degree['out_degree'].max()). -/
def maxOutDegree (g : Graph) : ℕ :=
  (List.range g.n).foldl (fun m v => max m (outDegree g v)) 0

/-- Spec section 4.3 convergence test: L1 distance between successive
iterates, delta = sum_i |x_new[i] - x_prev[i]|. -/
def l1dist (x y : List ℚ) : ℚ :=
  (List.zipWith (fun a b => |a - b|) x y).sum

/-- Modelled from the spec: section 4.3 Katz rule — contribution to vertex i
from its in-edges, sum over edges j -> i of weight(j,i) * x_prev[j]. -/
def inContribution (g : Graph) (x : List ℚ) (i : ℕ) : ℚ :=
  ((g.edges.filter (fun e => e.2.1 == i)).map (fun e => e.2.2 * x.getD e.1 0)).sum

/-- Modelled from the spec: section 4.3 Katz update rule,
x_new[i] = alpha * sum_{j -> i} weight(j,i) * x_prev[j] + beta. -/
def katzPass (g : Graph) (alpha beta : ℚ) (x : List ℚ) : List ℚ :=
  (List.range g.n).map (fun i => alpha * inContribution g x i + beta)

/-- Modelled from the spec: the total score mass sitting on dangling
(zero-out-degree) vertices, redistributed uniformly each PageRank pass. -/
def danglingMass (g : Graph) (x : List ℚ) : ℚ :=
  (((List.range g.n).filter (fun v => outDegree g v == 0)).map (fun v => x.getD v 0)).sum

/-- Modelled from the spec: section 4.3 PageRank rule — contribution to
vertex i from in-edges, sum over j -> i of weight(j,i) * x_prev[j] / out_degree(j). -/
def prContribution (g : Graph) (x : List ℚ) (i : ℕ) : ℚ :=
  ((g.edges.filter (fun e => e.2.1 == i)).map
    (fun e => e.2.2 * x.getD e.1 0 / (outDegree g e.1 : ℚ))).sum

/-- Modelled from the spec: section 4.3 PageRank update rule,
x_new[i] = (1 - alpha)/n + alpha * (sum_{j -> i} weight(j,i) * x_prev[j] / out_degree(j)
+ dangling mass / n), the dangling mass being redistributed uniformly so that
total probability mass is preserved. -/
def pagerankPass (g : Graph) (alpha : ℚ) (x : List ℚ) : List ℚ :=
  (List.range g.n).map
    (fun i => (1 - alpha) / (g.n : ℚ) +
      alpha * (prContribution g x i + danglingMass g x / (g.n : ℚ)))

/-- Modelled from the spec: section 7's error kinds relevant to the solver.
notConverged carries the last computed vector and the iteration count. -/
inductive SolverError where
  | invalidParameter : SolverError
  | notConverged : List ℚ → ℕ → SolverError
deriving DecidableEq

/-- A successful solver run: the final score vector and the number of
iterations it took. -/
structure SolverResult where
  scores : List ℚ
  iterations : ℕ
deriving DecidableEq

/-- Modelled from the spec: section 4.3's iteration loop.  Each pass applies
the update rule; if the L1 delta against the previous iterate falls below
n * tol the loop terminates successfully, otherwise it continues until the
fuel (remaining iterations) is exhausted, in which case it fails with
notConverged carrying the last computed vector and the iteration count. -/
def solverLoop (f : List ℚ → List ℚ) (n : ℕ) (tol : ℚ) :
    ℕ → List ℚ → ℕ → Except SolverError SolverResult
  | 0, x, done => Except.error (SolverError.notConverged x done)
  | fuel + 1, x, done =>
    let xn := f x
    if l1dist xn x < (n : ℚ) * tol then Except.ok ⟨xn, done + 1⟩
    else solverLoop f n tol fuel xn (done + 1)

/-- Whether a solver outcome is a success. -/
def solverIsOk : Except SolverError SolverResult → Bool
  | Except.ok _ => true
  | Except.error _ => false

/-- The convergence test of pass k (counting passes from 0) of the iteration
of f started at x0: the L1 delta of that pass is below n * tol. -/
def stepConverged (f : List ℚ → List ℚ) (n : ℕ) (tol : ℚ) (x0 : List ℚ) (k : ℕ) : Prop :=
  l1dist (f^[k + 1] x0) (f^[k] x0) < (n : ℚ) * tol

instance (f n tol x0 k) : Decidable (stepConverged f n tol x0 k) := by
  unfold stepConverged; infer_instance

/-- Modelled from the spec: section 6's
compute_katz(graph, alpha, beta, max_iter, tol, nstart) with section 7's
parameter validation (alpha <= 0, max_iter <= 0 or tol <= 0 is
InvalidParameterError).  The starting vector defaults to the uniform
all-zero vector.  The optional final normalization rescale of section 4.3
(a single division of the converged vector by its L2 norm, which leaves the
rationals) is not modelled; results below are about the solver's raw
fixed-point output. -/
def compute_katz (g : Graph) (alpha beta : ℚ) (max_iter : ℤ) (tol : ℚ)
    (nstart : Option (List ℚ)) : Except SolverError SolverResult :=
  if alpha ≤ 0 ∨ max_iter ≤ 0 ∨ tol ≤ 0 then Except.error SolverError.invalidParameter
  else solverLoop (katzPass g alpha beta) g.n tol max_iter.toNat
    (nstart.getD (List.replicate g.n 0)) 0

/-- Modelled from the spec: section 6's
compute_pagerank(graph, alpha, max_iter, tol, nstart) with section 7's
parameter validation.  The starting vector defaults to the uniform
probability vector 1/n. -/
def compute_pagerank (g : Graph) (alpha : ℚ) (max_iter : ℤ) (tol : ℚ)
    (nstart : Option (List ℚ)) : Except SolverError SolverResult :=
  if alpha ≤ 0 ∨ max_iter ≤ 0 ∨ tol ≤ 0 then Except.error SolverError.invalidParameter
  else solverLoop (pagerankPass g alpha) g.n tol max_iter.toNat
    (nstart.getD (List.replicate g.n (1 / (g.n : ℚ)))) 0

/-- A result table: one (vertex, score) row per vertex. -/
abbrev ScoreTable := List (ℕ × ℚ)

/-- The maximum of the score column, computed as the Pagerank notebook does
with gdf_page['pagerank'].max() (a running fold over the rows). -/
def colMax : ScoreTable → ℚ
  | [] => 0
  | r :: rs => rs.foldl (fun m row => max m row.2) r.2

/-- The Pagerank notebook's linear-scan best-vertex loop: start from row 0
and replace the running best only on a strictly greater score. -/
def bestVertexScan : ScoreTable → ℕ × ℚ
  | [] => (0, 0)
  | r :: rs => (r :: rs).foldl (fun acc row => if acc.2 < row.2 then row else acc) r

/-- The filter of the Pagerank notebook's print_pagerank_threshold: the rows
whose score is at least the threshold, in table order
(query('pagerank >= @t')). -/
def filterThreshold (t : ScoreTable) (q : ℚ) : ScoreTable :=
  t.filter (fun r => decide (q ≤ r.2))

/-- The Katz notebook's find_top_scores: take the column maximum m and keep
the rows with katz_centrality >= m (query('katz_centrality >= @m')). -/
def find_top_scores (t : ScoreTable) : ScoreTable :=
  t.filter (fun r => decide (colMax t ≤ r.2))

/-- Row ordering used by sort_values: by score (ascending or descending),
ties broken by ascending vertex index. -/
def rowLe : Bool → ℕ × ℚ → ℕ × ℚ → Prop
  | true, a, b => a.2 < b.2 ∨ (a.2 = b.2 ∧ a.1 ≤ b.1)
  | false, a, b => b.2 < a.2 ∨ (a.2 = b.2 ∧ a.1 ≤ b.1)

instance rowLeDec (asc : Bool) : DecidableRel (rowLe asc) := fun a b => by
  cases asc <;> unfold rowLe <;> infer_instance

instance rowLeTotal (asc : Bool) : IsTotal (ℕ × ℚ) (rowLe asc) := by
  constructor
  intro a b
  cases asc
  · rcases lt_trichotomy a.2 b.2 with h | h | h
    · exact Or.inr (Or.inl h)
    · rcases Nat.le_total a.1 b.1 with hv | hv
      · exact Or.inl (Or.inr ⟨h, hv⟩)
      · exact Or.inr (Or.inr ⟨h.symm, hv⟩)
    · exact Or.inl (Or.inl h)
  · rcases lt_trichotomy a.2 b.2 with h | h | h
    · exact Or.inl (Or.inl h)
    · rcases Nat.le_total a.1 b.1 with hv | hv
      · exact Or.inl (Or.inr ⟨h, hv⟩)
      · exact Or.inr (Or.inr ⟨h.symm, hv⟩)
    · exact Or.inr (Or.inl h)

instance rowLeTrans (asc : Bool) : IsTrans (ℕ × ℚ) (rowLe asc) := by
  constructor
  intro a b c hab hbc
  cases asc
  · rcases hab with h1 | ⟨h1, h1v⟩ <;> rcases hbc with h2 | ⟨h2, h2v⟩
    · exact Or.inl (h2.trans h1)
    · exact Or.inl (lt_of_eq_of_lt h2.symm h1)
    · exact Or.inl (lt_of_lt_of_eq h2 h1.symm)
    · exact Or.inr ⟨h1.trans h2, h1v.trans h2v⟩
  · rcases hab with h1 | ⟨h1, h1v⟩ <;> rcases hbc with h2 | ⟨h2, h2v⟩
    · exact Or.inl (h1.trans h2)
    · exact Or.inl (lt_of_lt_of_eq h1 h2)
    · exact Or.inl (lt_of_eq_of_lt h1 h2)
    · exact Or.inr ⟨h1.trans h2, h1v.trans h2v⟩

/-- The notebooks' sort_values(by=score, ascending): a stable sort on the
score column; on equal scores the vertex-index order (the table order of a
vertex-indexed table) is kept. -/
def sort_values (t : ScoreTable) (ascending : Bool) : ScoreTable :=
  List.insertionSort (rowLe ascending) t

/-- The 34-vertex directed cycle 0 -> 1 -> ... -> 33 -> 0, unit weights. -/
def cycle34 : Graph :=
  ⟨34, (List.range 34).map (fun i => (i, ((i + 1) % 34, (1 : ℚ))))⟩

/-- The three-vertex graph with the single edge 1 -> 2 (vertex 0 isolated). -/
def isoGraph : Graph := ⟨3, [(1, (2, (1 : ℚ)))]⟩

/-! ### Characterization of the iteration loop -/

lemma solverLoop_notConverged (f : List ℚ → List ℚ) (n : ℕ) (tol : ℚ) (x0 : List ℚ) :
    ∀ fuel k, (∀ j, k ≤ j → j < k + fuel → ¬ stepConverged f n tol x0 j) →
      solverLoop f n tol fuel (f^[k] x0) k =
        Except.error (SolverError.notConverged (f^[k + fuel] x0) (k + fuel)) := by
  intro fuel
  induction fuel with
  | zero =>
    intro k _
    simp [solverLoop]
  | succ fuel ih =>
    intro k h
    have hx : f (f^[k] x0) = f^[k + 1] x0 := (Function.iterate_succ_apply' f k x0).symm
    have hnc : ¬ l1dist (f^[k + 1] x0) (f^[k] x0) < (n : ℚ) * tol :=
      h k le_rfl (by omega)
    simp only [solverLoop, hx]
    rw [if_neg hnc]
    have he : k + (fuel + 1) = (k + 1) + fuel := by omega
    rw [he]
    exact ih (k + 1) (fun j hj1 hj2 => h j (by omega) (by omega))

lemma solverLoop_converged (f : List ℚ → List ℚ) (n : ℕ) (tol : ℚ) (x0 : List ℚ) :
    ∀ fuel k k0, k ≤ k0 → k0 < k + fuel → stepConverged f n tol x0 k0 →
      (∀ j, k ≤ j → j < k0 → ¬ stepConverged f n tol x0 j) →
      solverLoop f n tol fuel (f^[k] x0) k =
        Except.ok ⟨f^[k0 + 1] x0, k0 + 1⟩ := by
  intro fuel
  induction fuel with
  | zero =>
    intro k k0 h1 h2 _ _
    exact absurd h2 (by omega)
  | succ fuel ih =>
    intro k k0 hk1 hk2 hstep hmin
    have hx : f (f^[k] x0) = f^[k + 1] x0 := (Function.iterate_succ_apply' f k x0).symm
    simp only [solverLoop, hx]
    by_cases hc : k = k0
    · subst hc
      have hstep' : l1dist (f^[k + 1] x0) (f^[k] x0) < (n : ℚ) * tol := hstep
      rw [if_pos hstep']
    · have hlt : k < k0 := lt_of_le_of_ne hk1 hc
      have hnc : ¬ l1dist (f^[k + 1] x0) (f^[k] x0) < (n : ℚ) * tol :=
        hmin k le_rfl hlt
      rw [if_neg hnc]
      exact ih (k + 1) k0 (by omega) (by omega) hstep (fun j hj1 hj2 => hmin j (by omega) hj2)

lemma solverLoop_converged_zero (f : List ℚ → List ℚ) (n : ℕ) (tol : ℚ) (x0 : List ℚ)
    (fuel k0 : ℕ) (h1 : k0 < fuel) (h2 : stepConverged f n tol x0 k0)
    (h3 : ∀ j < k0, ¬ stepConverged f n tol x0 j) :
    solverLoop f n tol fuel x0 0 = Except.ok ⟨f^[k0 + 1] x0, k0 + 1⟩ := by
  have h := solverLoop_converged f n tol x0 fuel 0 k0 (Nat.zero_le _) (by omega) h2
    (fun j _ hj => h3 j hj)
  rwa [Function.iterate_zero_apply] at h

lemma solverLoop_notConverged_zero (f : List ℚ → List ℚ) (n : ℕ) (tol : ℚ) (x0 : List ℚ)
    (fuel : ℕ) (h : ∀ j < fuel, ¬ stepConverged f n tol x0 j) :
    solverLoop f n tol fuel x0 0 =
      Except.error (SolverError.notConverged (f^[fuel] x0) fuel) := by
  have hh := solverLoop_notConverged f n tol x0 fuel 0 (fun j _ hj => h j (by omega))
  rw [Function.iterate_zero_apply] at hh
  simpa using hh

lemma solverLoop_isOk_iff (f : List ℚ → List ℚ) (n : ℕ) (tol : ℚ) (x0 : List ℚ)
    (fuel : ℕ) :
    solverIsOk (solverLoop f n tol fuel x0 0) = true ↔
      ∃ j < fuel, stepConverged f n tol x0 j := by
  constructor
  · intro hok
    by_contra hex
    push_neg at hex
    rw [solverLoop_notConverged_zero f n tol x0 fuel hex] at hok
    simp [solverIsOk] at hok
  · rintro ⟨j, hj, hstep⟩
    have hP : ∃ i, stepConverged f n tol x0 i := ⟨j, hstep⟩
    have hfind : Nat.find hP < fuel := lt_of_le_of_lt (Nat.find_min' hP hstep) hj
    rw [solverLoop_converged_zero f n tol x0 fuel (Nat.find hP) hfind (Nat.find_spec hP)
      (fun i hi => Nat.find_min hP hi)]
    rfl

/-! ### List sum helpers -/

lemma list_sum_map_add {A : Type} (l : List A) (f g : A → ℚ) :
    (l.map (fun a => f a + g a)).sum = (l.map f).sum + (l.map g).sum := by
  induction l with
  | nil => simp
  | cons a t ih =>
    simp only [List.map_cons, List.sum_cons, ih]
    ring

lemma list_sum_map_const_on {A : Type} (l : List A) (f : A → ℚ) (c : ℚ)
    (h : ∀ a ∈ l, f a = c) : (l.map f).sum = (l.length : ℚ) * c := by
  induction l with
  | nil => simp
  | cons a t ih =>
    simp only [List.map_cons, List.sum_cons, List.length_cons]
    rw [h a (List.mem_cons_self a t), ih (fun x hx => h x (List.mem_cons_of_mem a hx))]
    push_cast
    ring

lemma list_abs_sum_le (l : List ℚ) : |l.sum| ≤ (l.map (fun a => |a|)).sum := by
  induction l with
  | nil => simp
  | cons a t ih =>
    simp only [List.sum_cons, List.map_cons]
    calc |a + t.sum| ≤ |a| + |t.sum| := abs_add _ _
    _ ≤ |a| + (t.map (fun a => |a|)).sum := by linarith

lemma sum_map_range_indicator (c : ℚ) (d : ℕ) :
    ∀ n, ((List.range n).map (fun i => if d = i then c else 0)).sum =
      if d < n then c else 0 := by
  intro n
  induction n with
  | zero => simp
  | succ n ih =>
    rw [List.range_succ, List.map_append, List.sum_append, ih]
    by_cases h : d < n
    · have h2 : d ≠ n := by omega
      simp [h2, if_pos h, if_pos (by omega : d < n + 1)]
    · by_cases h3 : d = n
      · simp [h, h3]
      · simp [h, h3, if_neg (by omega : ¬ d < n + 1)]

lemma sum_range_filter_eq {E : Type} (p : E → ℕ) (f : E → ℚ) (n : ℕ) :
    ∀ l : List E, (∀ e ∈ l, p e < n) →
      ((List.range n).map (fun i => ((l.filter (fun e => p e == i)).map f).sum)).sum
        = (l.map f).sum := by
  intro l
  induction l with
  | nil => intro _; simp
  | cons e rest ih =>
    intro h
    have he : p e < n := h e (List.mem_cons_self e rest)
    have hrest : ∀ x ∈ rest, p x < n := fun x hx => h x (List.mem_cons_of_mem e hx)
    have hsplit : ∀ i, ((List.filter (fun x => p x == i) (e :: rest)).map f).sum
        = (if p e = i then f e else 0) + ((List.filter (fun x => p x == i) rest).map f).sum := by
      intro i
      by_cases hpe : p e = i
      · rw [List.filter_cons_of_pos (by simpa using hpe)]
        simp [hpe]
      · rw [List.filter_cons_of_neg (by simpa using hpe)]
        simp [hpe]
    simp only [hsplit]
    rw [list_sum_map_add, sum_map_range_indicator (f e) (p e) n, if_pos he, ih hrest]
    simp

lemma filter_map_sum_eq_if {A : Type} (l : List A) (p : A → Bool) (f : A → ℚ) :
    ((l.filter p).map f).sum = (l.map (fun a => if p a then f a else 0)).sum := by
  induction l with
  | nil => simp
  | cons a t ih =>
    by_cases h : p a = true
    · rw [List.filter_cons_of_pos h]
      simp [h, ih]
    · rw [List.filter_cons_of_neg (by simpa using h)]
      simp [h, ih]

lemma getD_replicate_q (c : ℚ) : ∀ n i, (List.replicate n c).getD i 0 = if i < n then c else 0
  | 0, i => by simp
  | n + 1, 0 => by simp [List.replicate]
  | n + 1, i + 1 => by
    simp only [List.replicate, List.getD_cons_succ, getD_replicate_q c n i]
    by_cases h : i < n
    · rw [if_pos h, if_pos (by omega)]
    · rw [if_neg h, if_neg (by omega)]

lemma sum_range_getD (x : List ℚ) :
    ((List.range x.length).map (fun j => x.getD j 0)).sum = x.sum := by
  induction x with
  | nil => simp
  | cons a t ih =>
    have hr : List.range (a :: t).length = 0 :: (List.range t.length).map Nat.succ := by
      rw [List.length_cons, List.range_succ_eq_map]
    rw [hr]
    simp only [List.map_cons, List.getD_cons_zero, List.map_map, List.sum_cons]
    have : ((List.range t.length).map ((fun j => (a :: t).getD j 0) ∘ Nat.succ))
        = (List.range t.length).map (fun j => t.getD j 0) := by
      apply List.map_congr_left
      intro j _
      simp [Function.comp, List.getD_cons_succ]
    rw [this, ih]

/-! ### Fold-max helpers for the score-table queries -/

lemma le_foldl_max (l : ScoreTable) : ∀ b : ℚ, b ≤ l.foldl (fun m row => max m row.2) b := by
  induction l with
  | nil => intro b; simp
  | cons r rs ih => intro b; exact le_trans (le_max_left b r.2) (ih (max b r.2))

lemma mem_le_foldl_max (l : ScoreTable) :
    ∀ b : ℚ, ∀ r ∈ l, r.2 ≤ l.foldl (fun m row => max m row.2) b := by
  induction l with
  | nil => intro b r hr; simp at hr
  | cons a rs ih =>
    intro b r hr
    rcases List.mem_cons.mp hr with h | h
    · subst h
      exact le_trans (le_max_right b r.2) (le_foldl_max rs (max b r.2))
    · exact ih (max b a.2) r h

lemma foldl_max_attained (l : ScoreTable) : ∀ b : ℚ,
    l.foldl (fun m row => max m row.2) b = b ∨
      ∃ r ∈ l, l.foldl (fun m row => max m row.2) b = r.2 := by
  induction l with
  | nil => intro b; exact Or.inl rfl
  | cons a rs ih =>
    intro b
    rcases ih (max b a.2) with h | ⟨r, hr, h⟩
    · by_cases hba : a.2 ≤ b
      · left
        show List.foldl _ (max b a.2) rs = b
        rw [h]
        exact max_eq_left hba
      · right
        refine ⟨a, List.mem_cons_self a rs, ?_⟩
        show List.foldl _ (max b a.2) rs = a.2
        rw [h]
        exact max_eq_right (le_of_not_le hba)
    · right
      exact ⟨r, List.mem_cons_of_mem a hr, h⟩

lemma colMax_is_ub (t : ScoreTable) : ∀ r ∈ t, r.2 ≤ colMax t := by
  intro r hr
  cases t with
  | nil => simp at hr
  | cons a rs =>
    rcases List.mem_cons.mp hr with h | h
    · subst h
      exact le_foldl_max rs r.2
    · exact mem_le_foldl_max rs a.2 r h

lemma colMax_attained (t : ScoreTable) (h : t ≠ []) : ∃ r ∈ t, r.2 = colMax t := by
  cases t with
  | nil => exact absurd rfl h
  | cons a rs =>
    rcases foldl_max_attained rs a.2 with h2 | ⟨r, hr, h2⟩
    · exact ⟨a, List.mem_cons_self a rs, h2.symm⟩
    · exact ⟨r, List.mem_cons_of_mem a hr, h2.symm⟩

/-! ### Threshold filtering at the column maximum -/

lemma filterThreshold_colMax_eq (t : ScoreTable) :
    filterThreshold t (colMax t) = t.filter (fun r => decide (r.2 = colMax t)) := by
  unfold filterThreshold
  apply List.filter_congr
  intro r hr
  have hub := colMax_is_ub t r hr
  by_cases he : r.2 = colMax t
  · simp [he]
  · have hn : ¬ colMax t ≤ r.2 := fun hle => he (le_antisymm hub hle)
    simp [he, hn]

/-- Claim C10: on a non-empty score table, find_top_scores returns a
non-empty list of rows, namely exactly the rows whose score equals the
column maximum: every returned row attains the maximum and every row
attaining the maximum is returned. -/
theorem find_top_scores_spec (t : ScoreTable) (h : t ≠ []) :
    find_top_scores t ≠ [] ∧
    find_top_scores t = t.filter (fun r => decide (r.2 = colMax t)) ∧
    (∀ r ∈ find_top_scores t, r.2 = colMax t) ∧
    (∀ r ∈ t, r.2 = colMax t → r ∈ find_top_scores t) := by
  have hfc : find_top_scores t = t.filter (fun r => decide (r.2 = colMax t)) :=
    filterThreshold_colMax_eq t
  refine ⟨?_, hfc, ?_, ?_⟩
  · obtain ⟨r, hr, he⟩ := colMax_attained t h
    intro hnil
    have hmem : r ∈ find_top_scores t := by
      rw [hfc, List.mem_filter]
      exact ⟨hr, by simp [he]⟩
    rw [hnil] at hmem
    simp at hmem
  · intro r hr
    rw [hfc, List.mem_filter] at hr
    simpa using hr.2
  · intro r hr he
    rw [hfc, List.mem_filter]
    exact ⟨hr, by simp [he]⟩

/-- Witness for C10 at a concrete two-row table. -/
theorem find_top_scores_spec_witness :
    ([(0, (1 : ℚ)), (1, 2)] : ScoreTable) ≠ [] ∧
    find_top_scores [(0, (1 : ℚ)), (1, 2)] =
      List.filter (fun r => decide (r.2 = colMax [(0, (1 : ℚ)), (1, 2)])) [(0, (1 : ℚ)), (1, 2)] :=
  ⟨by decide, (find_top_scores_spec [(0, (1 : ℚ)), (1, 2)] (by decide)).2.1⟩

/-! ### The best-vertex linear scan -/

lemma scan_foldl_main : ∀ (rs : ScoreTable) (a : ℕ × ℚ),
    ((a.2 = rs.foldl (fun m row => max m row.2) a.2) →
      rs.foldl (fun acc row => if acc.2 < row.2 then row else acc) a = a)
    ∧ ((a.2 ≠ rs.foldl (fun m row => max m row.2) a.2) →
      rs.find? (fun x => decide (x.2 = rs.foldl (fun m row => max m row.2) a.2))
          = some (rs.foldl (fun acc row => if acc.2 < row.2 then row else acc) a)
        ∧ (rs.foldl (fun acc row => if acc.2 < row.2 then row else acc) a).2
          = rs.foldl (fun m row => max m row.2) a.2) := by
  intro rs
  induction rs with
  | nil =>
    intro a
    refine ⟨fun _ => rfl, fun h => absurd rfl h⟩
  | cons r rs ih =>
    intro a
    set a' := if a.2 < r.2 then r else a with hadf
    have hA : a'.2 = max a.2 r.2 := by
      rw [hadf]
      split_ifs with hl
      · exact (max_eq_right hl.le).symm
      · exact (max_eq_left (not_lt.mp hl)).symm
    have hme : (r :: rs).foldl (fun m row => max m row.2) a.2
        = rs.foldl (fun m row => max m row.2) a'.2 := by
      show rs.foldl _ (max a.2 r.2) = _
      rw [hA]
    have hse : (r :: rs).foldl (fun acc row => if acc.2 < row.2 then row else acc) a
        = rs.foldl (fun acc row => if acc.2 < row.2 then row else acc) a' := rfl
    obtain ⟨ih1, ih2⟩ := ih a'
    constructor
    · intro h
      rw [hme] at h
      rw [hse]
      have hub : a'.2 ≤ rs.foldl (fun m row => max m row.2) a'.2 := le_foldl_max rs a'.2
      have hA2 : a.2 ≤ a'.2 := by
        rw [hA]
        exact le_max_left _ _
      have hub' : a'.2 ≤ a.2 := by
        rw [h]
        exact hub
      have heq : a'.2 = a.2 := le_antisymm hub' hA2
      have hnlt : ¬ a.2 < r.2 := by
        intro hl
        have hr' : a' = r := by rw [hadf, if_pos hl]
        rw [hr'] at heq
        exact lt_irrefl a.2 (heq ▸ hl)
      have haeq2 : a' = a := by rw [hadf, if_neg hnlt]
      exact (ih1 (heq.trans h)).trans haeq2
    · intro h
      rw [hme] at h
      rw [hse, hme]
      by_cases h1 : a'.2 = rs.foldl (fun m row => max m row.2) a'.2
      · have hA2 : a.2 ≤ a'.2 := by
          rw [hA]
          exact le_max_left _ _
        have haM : a.2 ≠ a'.2 := fun he => h (he.trans h1)
        have hlt : a.2 < r.2 := by
          by_contra hn
          have haeq2 : a' = a := by rw [hadf, if_neg hn]
          exact haM (by rw [haeq2])
        have hareq : a' = r := by rw [hadf, if_pos hlt]
        have hrM : r.2 = rs.foldl (fun m row => max m row.2) a'.2 := by
          rw [← hareq]
          exact h1
        have hres : rs.foldl (fun acc row => if acc.2 < row.2 then row else acc) a' = a' :=
          ih1 h1
        constructor
        · have hhead : List.find?
              (fun x => decide (x.2 = rs.foldl (fun m row => max m row.2) a'.2)) (r :: rs)
              = some r :=
            List.find?_cons_of_pos
              (p := fun x => decide (x.2 = rs.foldl (fun m row => max m row.2) a'.2)) rs
              (decide_eq_true hrM)
          rw [hhead, hres, hareq]
        · rw [hres]
          exact h1
      · obtain ⟨hfind, hval⟩ := ih2 h1
        have hrM : ¬ r.2 = rs.foldl (fun m row => max m row.2) a'.2 := by
          intro hr'
          apply h1
          have h2 : r.2 ≤ a'.2 := by
            rw [hA]
            exact le_max_right _ _
          have h3 : a'.2 ≤ rs.foldl (fun m row => max m row.2) a'.2 := le_foldl_max rs a'.2
          rw [hr'] at h2
          exact le_antisymm h3 h2
        constructor
        · have hhead : List.find?
              (fun x => decide (x.2 = rs.foldl (fun m row => max m row.2) a'.2)) (r :: rs)
              = List.find?
                (fun x => decide (x.2 = rs.foldl (fun m row => max m row.2) a'.2)) rs :=
            List.find?_cons_of_neg
              (p := fun x => decide (x.2 = rs.foldl (fun m row => max m row.2) a'.2)) rs
              (by simpa using hrM)
          rw [hhead]
          exact hfind
        · exact hval

/-- Claim C9: on a non-empty score table, the Pagerank notebook's
linear-scan loop (initialized to row 0, updating only on a strictly
greater score) returns the column maximum together with the first row
attaining it; that row passes the threshold filter at threshold equal to
the column maximum, and when the maximum is attained by exactly one row
the filter returns exactly that single row. -/
theorem bestVertexScan_spec (t : ScoreTable) (h : t ≠ []) :
    (bestVertexScan t).2 = colMax t ∧
    t.find? (fun r => decide (r.2 = colMax t)) = some (bestVertexScan t) ∧
    bestVertexScan t ∈ filterThreshold t (colMax t) ∧
    ((t.filter (fun r => decide (r.2 = colMax t))).length = 1 →
      filterThreshold t (colMax t) = [bestVertexScan t]) := by
  have hfind : t.find? (fun r => decide (r.2 = colMax t)) = some (bestVertexScan t) := by
    cases t with
    | nil => exact absurd rfl h
    | cons r rs =>
      have hb : bestVertexScan (r :: rs)
          = rs.foldl (fun acc row => if acc.2 < row.2 then row else acc) r := by
        simp [bestVertexScan]
      have hcol : colMax (r :: rs) = rs.foldl (fun m row => max m row.2) r.2 := rfl
      obtain ⟨m1, m2⟩ := scan_foldl_main rs r
      by_cases h1 : r.2 = rs.foldl (fun m row => max m row.2) r.2
      · have hscan : bestVertexScan (r :: rs) = r := by
          rw [hb]
          exact m1 h1
        rw [hscan, hcol]
        exact List.find?_cons_of_pos
          (p := fun x => decide (x.2 = rs.foldl (fun m row => max m row.2) r.2)) rs
          (decide_eq_true h1)
      · obtain ⟨hf, hv⟩ := m2 h1
        rw [hcol, hb]
        have hhead : List.find?
            (fun x => decide (x.2 = rs.foldl (fun m row => max m row.2) r.2)) (r :: rs)
            = List.find?
              (fun x => decide (x.2 = rs.foldl (fun m row => max m row.2) r.2)) rs :=
          List.find?_cons_of_neg
            (p := fun x => decide (x.2 = rs.foldl (fun m row => max m row.2) r.2)) rs
            (by simpa using h1)
        rw [hhead]
        exact hf
  have hmem : bestVertexScan t ∈ t := List.mem_of_find?_eq_some hfind
  have hvaleq : (bestVertexScan t).2 = colMax t := by
    have := List.find?_some hfind
    simpa using this
  have hmemF : bestVertexScan t ∈ filterThreshold t (colMax t) := by
    unfold filterThreshold
    rw [List.mem_filter]
    exact ⟨hmem, by simp [hvaleq]⟩
  refine ⟨hvaleq, hfind, hmemF, ?_⟩
  intro hlen
  have hmem' : bestVertexScan t ∈ t.filter (fun r => decide (r.2 = colMax t)) := by
    rw [← filterThreshold_colMax_eq]
    exact hmemF
  rw [filterThreshold_colMax_eq]
  obtain ⟨x, hx⟩ := List.length_eq_one.mp hlen
  rw [hx] at hmem' ⊢
  rw [List.mem_singleton] at hmem'
  rw [hmem']

/-- Witness for C9 at a concrete three-row table with a tie at the top. -/
theorem bestVertexScan_spec_witness :
    ([(0, (1 : ℚ) / 2), (1, 1 / 2), (2, 1 / 10)] : ScoreTable) ≠ [] ∧
    ([(0, (1 : ℚ) / 2), (1, 1 / 2), (2, 1 / 10)] : ScoreTable).find?
        (fun r => decide (r.2 = colMax [(0, (1 : ℚ) / 2), (1, 1 / 2), (2, 1 / 10)]))
      = some (bestVertexScan [(0, (1 : ℚ) / 2), (1, 1 / 2), (2, 1 / 10)]) :=
  ⟨by decide,
    (bestVertexScan_spec [(0, (1 : ℚ) / 2), (1, 1 / 2), (2, 1 / 10)] (by decide)).2.1⟩

/-- Claim C3: any call of compute_katz or compute_pagerank with alpha <= 0,
max_iter <= 0 or tol <= 0 fails with InvalidParameterError; the invalid
parameter is not silently replaced by a default. -/
theorem invalid_parameter_rejected (g : Graph) (alpha beta : ℚ) (max_iter : ℤ) (tol : ℚ)
    (nk np : Option (List ℚ)) (h : alpha ≤ 0 ∨ max_iter ≤ 0 ∨ tol ≤ 0) :
    compute_katz g alpha beta max_iter tol nk = Except.error SolverError.invalidParameter ∧
    compute_pagerank g alpha max_iter tol np = Except.error SolverError.invalidParameter := by
  constructor
  · simp only [compute_katz]
    rw [if_pos h]
  · simp only [compute_pagerank]
    rw [if_pos h]

/-- Witness for C3: a negative alpha is rejected. -/
theorem invalid_parameter_rejected_witness :
    ((-1 : ℚ) ≤ 0 ∨ (100 : ℤ) ≤ 0 ∨ (1 / 100000 : ℚ) ≤ 0) ∧
    compute_katz isoGraph (-1) 1 100 (1 / 100000) none
      = Except.error SolverError.invalidParameter :=
  ⟨by decide,
    (invalid_parameter_rejected isoGraph (-1) 1 100 (1 / 100000) none none (by decide)).1⟩

/-! ### Convergence reporting (claims C2, C7, C4) -/

lemma l1dist_self (x : List ℚ) : l1dist x x = 0 := by
  induction x with
  | nil => rfl
  | cons a t ih =>
    unfold l1dist at *
    simp [ih]

/-- Claim C2: with valid parameters, compute_katz and compute_pagerank fail
with NotConvergedError — carrying the last computed vector and the iteration
count — exactly when all max_iter passes have an L1 delta at least n * tol;
when some pass's delta first falls below n * tol, the solver returns the
vector of that pass together with its index.  Success happens if and only if
some pass within the iteration budget meets the tolerance, so non-convergence
is never reported by silently returning a truncated result. -/
theorem solver_convergence_characterization (g : Graph) (alpha beta : ℚ) (max_iter : ℤ)
    (tol : ℚ) (nk np : Option (List ℚ))
    (ha : 0 < alpha) (hm : 0 < max_iter) (ht : 0 < tol) :
    ((∀ j < max_iter.toNat,
        ¬ stepConverged (katzPass g alpha beta) g.n tol (nk.getD (List.replicate g.n 0)) j) →
      compute_katz g alpha beta max_iter tol nk =
        Except.error (SolverError.notConverged
          ((katzPass g alpha beta)^[max_iter.toNat] (nk.getD (List.replicate g.n 0)))
          max_iter.toNat)) ∧
    (∀ k < max_iter.toNat,
      stepConverged (katzPass g alpha beta) g.n tol (nk.getD (List.replicate g.n 0)) k →
      (∀ j < k,
        ¬ stepConverged (katzPass g alpha beta) g.n tol (nk.getD (List.replicate g.n 0)) j) →
      compute_katz g alpha beta max_iter tol nk =
        Except.ok ⟨(katzPass g alpha beta)^[k + 1] (nk.getD (List.replicate g.n 0)), k + 1⟩) ∧
    (solverIsOk (compute_katz g alpha beta max_iter tol nk) = true ↔
      ∃ j < max_iter.toNat,
        stepConverged (katzPass g alpha beta) g.n tol (nk.getD (List.replicate g.n 0)) j) ∧
    ((∀ j < max_iter.toNat,
        ¬ stepConverged (pagerankPass g alpha) g.n tol
          (np.getD (List.replicate g.n (1 / (g.n : ℚ)))) j) →
      compute_pagerank g alpha max_iter tol np =
        Except.error (SolverError.notConverged
          ((pagerankPass g alpha)^[max_iter.toNat]
            (np.getD (List.replicate g.n (1 / (g.n : ℚ)))))
          max_iter.toNat)) ∧
    (∀ k < max_iter.toNat,
      stepConverged (pagerankPass g alpha) g.n tol
        (np.getD (List.replicate g.n (1 / (g.n : ℚ)))) k →
      (∀ j < k,
        ¬ stepConverged (pagerankPass g alpha) g.n tol
          (np.getD (List.replicate g.n (1 / (g.n : ℚ)))) j) →
      compute_pagerank g alpha max_iter tol np =
        Except.ok ⟨(pagerankPass g alpha)^[k + 1]
          (np.getD (List.replicate g.n (1 / (g.n : ℚ)))), k + 1⟩) ∧
    (solverIsOk (compute_pagerank g alpha max_iter tol np) = true ↔
      ∃ j < max_iter.toNat,
        stepConverged (pagerankPass g alpha) g.n tol
          (np.getD (List.replicate g.n (1 / (g.n : ℚ)))) j) := by
  have hval : ¬ (alpha ≤ 0 ∨ max_iter ≤ 0 ∨ tol ≤ 0) := by
    push_neg
    exact ⟨ha, hm, ht⟩
  have hk : compute_katz g alpha beta max_iter tol nk =
      solverLoop (katzPass g alpha beta) g.n tol max_iter.toNat
        (nk.getD (List.replicate g.n 0)) 0 := by
    simp only [compute_katz]
    rw [if_neg hval]
  have hp : compute_pagerank g alpha max_iter tol np =
      solverLoop (pagerankPass g alpha) g.n tol max_iter.toNat
        (np.getD (List.replicate g.n (1 / (g.n : ℚ)))) 0 := by
    simp only [compute_pagerank]
    rw [if_neg hval]
  refine ⟨?_, ?_, ?_, ?_, ?_, ?_⟩
  · intro hall
    rw [hk]
    exact solverLoop_notConverged_zero _ _ _ _ _ hall
  · intro k hklt hs hmin
    rw [hk]
    exact solverLoop_converged_zero _ _ _ _ _ k hklt hs hmin
  · rw [hk]
    exact solverLoop_isOk_iff _ _ _ _ _
  · intro hall
    rw [hp]
    exact solverLoop_notConverged_zero _ _ _ _ _ hall
  · intro k hklt hs hmin
    rw [hp]
    exact solverLoop_converged_zero _ _ _ _ _ k hklt hs hmin
  · rw [hp]
    exact solverLoop_isOk_iff _ _ _ _ _

/-- Witness for C2 at concrete valid parameters. -/
theorem solver_convergence_characterization_witness :
    ((0 : ℚ) < 1 / 2 ∧ (0 : ℤ) < 100 ∧ (0 : ℚ) < 1 / 100000) ∧
    (solverIsOk (compute_katz isoGraph (1 / 2) 1 100 (1 / 100000) none) = true ↔
      ∃ j < (100 : ℤ).toNat,
        stepConverged (katzPass isoGraph (1 / 2) 1) isoGraph.n (1 / 100000)
          ((none : Option (List ℚ)).getD (List.replicate isoGraph.n 0)) j) :=
  ⟨⟨by with_unfolding_all decide, by decide, by with_unfolding_all decide⟩,
    (solver_convergence_characterization isoGraph (1 / 2) 1 100 (1 / 100000) none none
      (by with_unfolding_all decide) (by decide) (by with_unfolding_all decide)).2.2.1⟩

/-- Claim C7: supplying as nstart a vector that is a fixed point within
tolerance (the first pass's L1 delta is already below n * tol) makes the
solver terminate after a single iteration, for Katz and PageRank alike. -/
theorem nstart_fixed_point_single_iteration (g : Graph) (alpha beta tol : ℚ)
    (max_iter : ℤ) (xk xp : List ℚ) (ha : 0 < alpha) (hm : 0 < max_iter) (ht : 0 < tol)
    (hxk : l1dist (katzPass g alpha beta xk) xk < (g.n : ℚ) * tol)
    (hxp : l1dist (pagerankPass g alpha xp) xp < (g.n : ℚ) * tol) :
    compute_katz g alpha beta max_iter tol (some xk) =
      Except.ok ⟨katzPass g alpha beta xk, 1⟩ ∧
    compute_pagerank g alpha max_iter tol (some xp) =
      Except.ok ⟨pagerankPass g alpha xp, 1⟩ := by
  have hval : ¬ (alpha ≤ 0 ∨ max_iter ≤ 0 ∨ tol ≤ 0) := by
    push_neg
    exact ⟨ha, hm, ht⟩
  have hfuel : 0 < max_iter.toNat := by omega
  constructor
  · simp only [compute_katz]
    rw [if_neg hval]
    simp only [Option.getD_some]
    have h0 : stepConverged (katzPass g alpha beta) g.n tol xk 0 := by
      unfold stepConverged
      simpa using hxk
    have hres := solverLoop_converged_zero (katzPass g alpha beta) g.n tol xk
      max_iter.toNat 0 hfuel h0 (fun j hj => absurd hj (Nat.not_lt_zero j))
    simpa using hres
  · simp only [compute_pagerank]
    rw [if_neg hval]
    simp only [Option.getD_some]
    have h0 : stepConverged (pagerankPass g alpha) g.n tol xp 0 := by
      unfold stepConverged
      simpa using hxp
    have hres := solverLoop_converged_zero (pagerankPass g alpha) g.n tol xp
      max_iter.toNat 0 hfuel h0 (fun j hj => absurd hj (Nat.not_lt_zero j))
    simpa using hres

/-- Witness for C7: the one-vertex edgeless graph with its fixed points. -/
theorem nstart_fixed_point_single_iteration_witness :
    (l1dist (katzPass ⟨1, []⟩ (17 / 20) 1 [1]) [1] < ((⟨1, []⟩ : Graph).n : ℚ) * (1 / 100000)) ∧
    compute_katz ⟨1, []⟩ (17 / 20) 1 100 (1 / 100000) (some [1]) =
      Except.ok ⟨katzPass ⟨1, []⟩ (17 / 20) 1 [1], 1⟩ :=
  ⟨by with_unfolding_all decide,
    (nstart_fixed_point_single_iteration ⟨1, []⟩ (17 / 20) 1 (1 / 100000) 100 [1] [1]
      (by with_unfolding_all decide) (by decide) (by with_unfolding_all decide)
      (by with_unfolding_all decide) (by with_unfolding_all decide)).1⟩

lemma pagerankPass_no_edges (g : Graph) (alpha : ℚ) (hn : 1 ≤ g.n) (hedges : g.edges = []) :
    pagerankPass g alpha (List.replicate g.n (1 / (g.n : ℚ)))
      = List.replicate g.n (1 / (g.n : ℚ)) := by
  have hpos : (0 : ℚ) < (g.n : ℚ) := by exact_mod_cast hn
  have hne : ((g.n : ℚ)) ≠ 0 := ne_of_gt hpos
  have hcontrib : ∀ i, prContribution g (List.replicate g.n (1 / (g.n : ℚ))) i = 0 := by
    intro i
    unfold prContribution
    rw [hedges]
    simp
  have hdang : danglingMass g (List.replicate g.n (1 / (g.n : ℚ))) = 1 := by
    unfold danglingMass
    have hf : (List.range g.n).filter (fun v => outDegree g v == 0) = List.range g.n := by
      apply List.filter_eq_self.mpr
      intro v _
      simp [outDegree, hedges]
    rw [hf]
    rw [list_sum_map_const_on (List.range g.n) _ (1 / (g.n : ℚ))
      (fun v hv => by rw [getD_replicate_q, if_pos (List.mem_range.mp hv)])]
    rw [List.length_range]
    field_simp
  unfold pagerankPass
  rw [hdang]
  have hpt : ∀ i ∈ List.range g.n,
      ((1 - alpha) / (g.n : ℚ) +
        alpha * (prContribution g (List.replicate g.n (1 / (g.n : ℚ))) i + 1 / (g.n : ℚ)))
      = 1 / (g.n : ℚ) := by
    intro i _
    rw [hcontrib i, zero_add]
    field_simp
  rw [List.map_congr_left hpt, List.map_const', List.length_range]

/-- Claim C4: on a graph with at least one vertex and no edges,
compute_pagerank (valid parameters, default start) converges in exactly one
iteration and returns the uniform vector with every entry 1/n. -/
theorem pagerank_zero_edges (g : Graph) (alpha tol : ℚ) (max_iter : ℤ)
    (hn : 1 ≤ g.n) (hedges : g.edges = []) (ha : 0 < alpha) (hm : 0 < max_iter)
    (ht : 0 < tol) :
    compute_pagerank g alpha max_iter tol none =
      Except.ok ⟨List.replicate g.n (1 / (g.n : ℚ)), 1⟩ := by
  have hval : ¬ (alpha ≤ 0 ∨ max_iter ≤ 0 ∨ tol ≤ 0) := by
    push_neg
    exact ⟨ha, hm, ht⟩
  have hpos : (0 : ℚ) < (g.n : ℚ) := by exact_mod_cast hn
  simp only [compute_pagerank]
  rw [if_neg hval]
  simp only [Option.getD_none]
  have hfix := pagerankPass_no_edges g alpha hn hedges
  have h0 : stepConverged (pagerankPass g alpha) g.n tol
      (List.replicate g.n (1 / (g.n : ℚ))) 0 := by
    unfold stepConverged
    simp only [Function.iterate_one, Function.iterate_zero_apply, Nat.zero_add]
    rw [hfix, l1dist_self]
    exact mul_pos hpos ht
  have hfuel : 0 < max_iter.toNat := by omega
  have hres := solverLoop_converged_zero (pagerankPass g alpha) g.n tol
    (List.replicate g.n (1 / (g.n : ℚ))) max_iter.toNat 0 hfuel h0
    (fun j hj => absurd hj (Nat.not_lt_zero j))
  rw [hres]
  simp only [Nat.zero_add, zero_add, Function.iterate_one, hfix]

/-- Witness for C4: the three-vertex edgeless graph. -/
theorem pagerank_zero_edges_witness :
    (1 ≤ (⟨3, []⟩ : Graph).n ∧ (⟨3, []⟩ : Graph).edges = []) ∧
    compute_pagerank ⟨3, []⟩ (17 / 20) 100 (1 / 100000) none =
      Except.ok ⟨List.replicate 3 (1 / ((3 : ℕ) : ℚ)), 1⟩ :=
  ⟨⟨by decide, rfl⟩,
    pagerank_zero_edges ⟨3, []⟩ (17 / 20) (1 / 100000) 100 (by decide) rfl
      (by with_unfolding_all decide) (by decide) (by with_unfolding_all decide)⟩

/-! ### Isolated vertices under the Katz rule (claim C6) -/

lemma getD_map_range (f : ℕ → ℚ) (n i : ℕ) (h : i < n) :
    ((List.range n).map f).getD i 0 = f i := by
  simp [List.getD_eq_getElem?_getD, List.getElem?_map, List.getElem?_range h]

lemma katz_iso_pass1 (alpha : ℚ) : katzPass isoGraph alpha 1 [0, 0, 0] = [1, 1, 1] := by
  simp [katzPass, inContribution, isoGraph, List.range_succ]

lemma katz_iso_pass2 (alpha : ℚ) :
    katzPass isoGraph alpha 1 [1, 1, 1] = [1, 1, alpha + 1] := by
  simp [katzPass, inContribution, isoGraph, List.range_succ]

lemma katz_iso_pass3 (alpha : ℚ) :
    katzPass isoGraph alpha 1 [1, 1, alpha + 1] = [1, 1, alpha + 1] := by
  simp [katzPass, inContribution, isoGraph, List.range_succ]

lemma l1dist_pass01 : l1dist [1, 1, 1] ([0, 0, 0] : List ℚ) = 3 := by
  norm_num [l1dist]

lemma l1dist_pass12 (alpha : ℚ) (ha : 0 < alpha) :
    l1dist [1, 1, alpha + 1] ([1, 1, 1] : List ℚ) = alpha := by
  norm_num [l1dist]
  exact ha.le

/-- Claim C6: an isolated (in-degree-0) vertex's Katz score is exactly the
bias term beta — it never accumulates neighbor contributions in a pass — and
on the three-vertex graph with vertices 0, 1, 2 and the single edge 1 -> 2,
compute_katz succeeds and returns a score for the isolated vertex 0 that is
exactly 1 (the default beta), for every alpha > 0. -/
theorem katz_isolated_vertex (g : Graph) (x : List ℚ) (i : ℕ) (alpha beta : ℚ)
    (ha : 0 < alpha) (hi : i < g.n) (hiso : ∀ e ∈ g.edges, e.2.1 ≠ i) :
    (katzPass g alpha beta x).getD i 0 = beta ∧
    ∃ r, compute_katz isoGraph alpha 1 100 (1 / 100000) none = Except.ok r ∧
      r.scores.getD 0 0 = 1 := by
  constructor
  · unfold katzPass
    rw [getD_map_range _ _ _ hi]
    have hfe : g.edges.filter (fun e => e.2.1 == i) = [] := by
      rw [List.filter_eq_nil_iff]
      intro e he
      simp [hiso e he]
    unfold inContribution
    rw [hfe]
    simp
  · have hval : ¬ (alpha ≤ 0 ∨ (100 : ℤ) ≤ 0 ∨ (1 / 100000 : ℚ) ≤ 0) := by
      push_neg
      exact ⟨ha, by norm_num, by norm_num⟩
    simp only [compute_katz]
    rw [if_neg hval]
    have hn : isoGraph.n = 3 := rfl
    rw [hn]
    simp only [Option.getD_none]
    have hrep : List.replicate 3 (0 : ℚ) = [0, 0, 0] := rfl
    rw [hrep]
    set f := katzPass isoGraph alpha 1 with hf
    have e1 : f^[1] [0, 0, 0] = [1, 1, 1] := by
      rw [Function.iterate_one, hf]
      exact katz_iso_pass1 alpha
    have e2 : f^[2] [0, 0, 0] = [1, 1, alpha + 1] := by
      rw [show (2 : ℕ) = 1 + 1 from rfl, Function.iterate_succ_apply', e1, hf]
      exact katz_iso_pass2 alpha
    have e3 : f^[3] [0, 0, 0] = [1, 1, alpha + 1] := by
      rw [show (3 : ℕ) = 2 + 1 from rfl, Function.iterate_succ_apply', e2, hf]
      exact katz_iso_pass3 alpha
    have htol : ((3 : ℕ) : ℚ) * (1 / 100000) = 3 / 100000 := by norm_num
    have s0 : ¬ stepConverged f 3 (1 / 100000) [0, 0, 0] 0 := by
      unfold stepConverged
      rw [show (0 + 1 : ℕ) = 1 from rfl, e1, Function.iterate_zero_apply,
        l1dist_pass01, htol]
      norm_num
    by_cases hsm : alpha < 3 / 100000
    · have s1 : stepConverged f 3 (1 / 100000) [0, 0, 0] 1 := by
        unfold stepConverged
        rw [show (1 + 1 : ℕ) = 2 from rfl, e2, e1, l1dist_pass12 alpha ha, htol]
        exact hsm
      have hres := solverLoop_converged_zero f 3 (1 / 100000) [0, 0, 0] (100 : ℤ).toNat 1
        (by decide) s1 (fun j hj => by
          have hj0 : j = 0 := by omega
          rw [hj0]
          exact s0)
      rw [hres]
      refine ⟨⟨f^[1 + 1] [0, 0, 0], 1 + 1⟩, rfl, ?_⟩
      show (f^[1 + 1] [0, 0, 0]).getD 0 0 = 1
      rw [show (1 + 1 : ℕ) = 2 from rfl, e2]
      rfl
    · have s1n : ¬ stepConverged f 3 (1 / 100000) [0, 0, 0] 1 := by
        unfold stepConverged
        rw [show (1 + 1 : ℕ) = 2 from rfl, e2, e1, l1dist_pass12 alpha ha, htol]
        exact hsm
      have s2 : stepConverged f 3 (1 / 100000) [0, 0, 0] 2 := by
        unfold stepConverged
        rw [show (2 + 1 : ℕ) = 3 from rfl, e3, e2, l1dist_self, htol]
        norm_num
      have hres := solverLoop_converged_zero f 3 (1 / 100000) [0, 0, 0] (100 : ℤ).toNat 2
        (by decide) s2 (fun j hj => by
          interval_cases j
          · exact s0
          · exact s1n)
      rw [hres]
      refine ⟨⟨f^[2 + 1] [0, 0, 0], 2 + 1⟩, rfl, ?_⟩
      show (f^[2 + 1] [0, 0, 0]).getD 0 0 = 1
      rw [show (2 + 1 : ℕ) = 3 from rfl, e3]
      rfl

/-- Witness for C6 at alpha = 1/2 on the concrete isolated-vertex graph. -/
theorem katz_isolated_vertex_witness :
    ((0 : ℚ) < 1 / 2 ∧ 0 < isoGraph.n ∧ ∀ e ∈ isoGraph.edges, e.2.1 ≠ 0) ∧
    (katzPass isoGraph (1 / 2) 1 [5, 7, 11]).getD 0 0 = 1 :=
  ⟨⟨by with_unfolding_all decide, by decide, by decide⟩,
    (katz_isolated_vertex isoGraph [5, 7, 11] 0 (1 / 2) 1 (by with_unfolding_all decide)
      (by decide) (by decide)).1⟩

/-! ### Sorting the score table (claim C8) -/

/-- Claim C8: sorting the same table descending and ascending yields
orderings that are reverses of each other except inside groups of equal
scores — the score columns are exact reverses — and within every tie group
the rows appear in strictly ascending vertex-index order in both sort
directions (for a table with pairwise distinct vertex ids). -/
theorem sort_values_reverse_spec (t : ScoreTable) (h : (t.map Prod.fst).Nodup) :
    (sort_values t false).map Prod.snd = ((sort_values t true).map Prod.snd).reverse ∧
    (sort_values t true).Pairwise (fun a b => a.2 = b.2 → a.1 < b.1) ∧
    (sort_values t false).Pairwise (fun a b => a.2 = b.2 → a.1 < b.1) := by
  have hperm_asc : List.Perm (sort_values t true) t := List.perm_insertionSort _ t
  have hperm_desc : List.Perm (sort_values t false) t := List.perm_insertionSort _ t
  have hsorted_asc : List.Sorted (rowLe true) (sort_values t true) :=
    List.sorted_insertionSort _ t
  have hsorted_desc : List.Sorted (rowLe false) (sort_values t false) :=
    List.sorted_insertionSort _ t
  have hnod_asc : ((sort_values t true).map Prod.fst).Nodup :=
    ((hperm_asc.map Prod.fst).nodup_iff).mpr h
  have hnod_desc : ((sort_values t false).map Prod.fst).Nodup :=
    ((hperm_desc.map Prod.fst).nodup_iff).mpr h
  have hne_asc : (sort_values t true).Pairwise (fun a b => a.1 ≠ b.1) :=
    List.pairwise_map.mp hnod_asc
  have hne_desc : (sort_values t false).Pairwise (fun a b => a.1 ≠ b.1) :=
    List.pairwise_map.mp hnod_desc
  refine ⟨?_, ?_, ?_⟩
  · have hs_desc : ((sort_values t false).map Prod.snd).Pairwise (fun x y : ℚ => y ≤ x) := by
      apply List.pairwise_map.mpr
      apply hsorted_desc.imp
      intro a b hab
      rcases hab with hlt | ⟨heq, _⟩
      · exact hlt.le
      · exact heq.symm.le
    have hs_rev : (((sort_values t true).map Prod.snd).reverse).Pairwise
        (fun x y : ℚ => y ≤ x) := by
      apply List.pairwise_reverse.mpr
      apply List.pairwise_map.mpr
      apply hsorted_asc.imp
      intro a b hab
      rcases hab with hlt | ⟨heq, _⟩
      · exact hlt.le
      · exact heq.le
    have hperm : List.Perm ((sort_values t false).map Prod.snd)
        (((sort_values t true).map Prod.snd).reverse) :=
      ((hperm_desc.map Prod.snd).trans (hperm_asc.map Prod.snd).symm).trans
        (List.reverse_perm _).symm
    haveI : IsAntisymm ℚ (fun x y : ℚ => y ≤ x) := ⟨fun a b h1 h2 => le_antisymm h2 h1⟩
    exact List.eq_of_perm_of_sorted hperm hs_desc hs_rev
  · apply (hsorted_asc.and hne_asc).imp
    intro a b hab heq
    rcases hab.1 with hlt | ⟨_, hle⟩
    · rw [heq] at hlt
      exact absurd hlt (lt_irrefl b.2)
    · exact lt_of_le_of_ne hle hab.2
  · apply (hsorted_desc.and hne_desc).imp
    intro a b hab heq
    rcases hab.1 with hlt | ⟨_, hle⟩
    · rw [heq] at hlt
      exact absurd hlt (lt_irrefl b.2)
    · exact lt_of_le_of_ne hle hab.2

/-- Witness for C8 at a concrete table with a tie between vertices 0 and 1. -/
theorem sort_values_reverse_spec_witness :
    (([(0, (1 : ℚ) / 2), (1, 1 / 2), (2, 1 / 10)] : ScoreTable).map Prod.fst).Nodup ∧
    (sort_values [(0, (1 : ℚ) / 2), (1, 1 / 2), (2, 1 / 10)] false).map Prod.snd
      = ((sort_values [(0, (1 : ℚ) / 2), (1, 1 / 2), (2, 1 / 10)] true).map Prod.snd).reverse :=
  ⟨by decide,
    (sort_values_reverse_spec [(0, (1 : ℚ) / 2), (1, 1 / 2), (2, 1 / 10)] (by decide)).1⟩

/-! ### PageRank mass conservation (claim C5) -/

lemma list_sum_map_mul_left {A : Type} (l : List A) (f : A → ℚ) (b : ℚ) :
    (l.map (fun a => b * f a)).sum = b * (l.map f).sum := by
  induction l with
  | nil => simp
  | cons a t ih =>
    simp only [List.map_cons, List.sum_cons, ih]
    ring

/-- Counterexample to C5 as stated: the update rule quoted by the claim
multiplies by the edge weight, and with a non-unit weight it does not
preserve total mass.  Two vertices, one edge 0 -> 1 of weight 2: the input
vector sums to 1, the output of one PageRank pass does not. -/
theorem pagerank_mass_not_preserved_weighted :
    (⟨2, [(0, (1, 2))]⟩ : Graph).WF ∧
    ([1 / 2, 1 / 2] : List ℚ).sum = 1 ∧
    ¬ (pagerankPass ⟨2, [(0, (1, 2))]⟩ (17 / 20) [1 / 2, 1 / 2]).sum = 1 :=
  ⟨by decide, by with_unfolding_all decide, by with_unfolding_all decide⟩

/-- Claim C5 (amended): for a well-formed graph whose edge weights are all 1
(the declared default), if the score vector has one entry per vertex and
total mass 1, a PageRank pass — with dangling mass redistributed uniformly —
again has total mass 1. -/
theorem pagerank_mass_preserved (g : Graph) (alpha : ℚ) (x : List ℚ)
    (hwf : g.WF) (hw : ∀ e ∈ g.edges, e.2.2 = 1) (hn : 1 ≤ g.n)
    (hx : x.length = g.n) (hsum : x.sum = 1) :
    (pagerankPass g alpha x).sum = 1 := by
  have hpos : (0 : ℚ) < (g.n : ℚ) := by exact_mod_cast hn
  have hne : ((g.n : ℚ)) ≠ 0 := ne_of_gt hpos
  unfold pagerankPass
  have hsplit : ∀ i ∈ List.range g.n,
      (1 - alpha) / (g.n : ℚ) + alpha * (prContribution g x i + danglingMass g x / (g.n : ℚ))
      = ((1 - alpha) / (g.n : ℚ) + alpha * (danglingMass g x / (g.n : ℚ)))
        + alpha * prContribution g x i := by
    intro i _
    ring
  rw [List.map_congr_left hsplit, list_sum_map_add]
  have hconst : ((List.range g.n).map (fun _ =>
      (1 - alpha) / (g.n : ℚ) + alpha * (danglingMass g x / (g.n : ℚ)))).sum
      = (1 - alpha) + alpha * danglingMass g x := by
    rw [list_sum_map_const_on _ _
      ((1 - alpha) / (g.n : ℚ) + alpha * (danglingMass g x / (g.n : ℚ)))
      (fun _ _ => rfl), List.length_range]
    field_simp
  have hcontrib : ((List.range g.n).map (fun i => prContribution g x i)).sum
      = x.sum - danglingMass g x := by
    have hA : ((List.range g.n).map (fun i => prContribution g x i)).sum
        = (g.edges.map (fun e => e.2.2 * x.getD e.1 0 / (outDegree g e.1 : ℚ))).sum := by
      simp only [prContribution]
      exact sum_range_filter_eq (fun e => e.2.1) _ g.n g.edges (fun e he => (hwf e he).2)
    have hB : (g.edges.map (fun e => e.2.2 * x.getD e.1 0 / (outDegree g e.1 : ℚ))).sum
        = (g.edges.map (fun e => x.getD e.1 0 / (outDegree g e.1 : ℚ))).sum := by
      apply congrArg List.sum
      apply List.map_congr_left
      intro e he
      rw [hw e he, one_mul]
    have hC : (g.edges.map (fun e => x.getD e.1 0 / (outDegree g e.1 : ℚ))).sum
        = ((List.range g.n).map (fun j =>
            ((g.edges.filter (fun e => e.1 == j)).map
              (fun e => x.getD e.1 0 / (outDegree g e.1 : ℚ))).sum)).sum :=
      (sum_range_filter_eq (fun e => e.1) _ g.n g.edges (fun e he => (hwf e he).1)).symm
    have hD : ∀ j ∈ List.range g.n,
        ((g.edges.filter (fun e => e.1 == j)).map
          (fun e => x.getD e.1 0 / (outDegree g e.1 : ℚ))).sum
        = (if outDegree g j = 0 then 0 else x.getD j 0) := by
      intro j _
      have hval : ∀ e ∈ g.edges.filter (fun e => e.1 == j),
          x.getD e.1 0 / (outDegree g e.1 : ℚ) = x.getD j 0 / (outDegree g j : ℚ) := by
        intro e he
        have hej : e.1 = j := by simpa using (List.mem_filter.mp he).2
        rw [hej]
      rw [list_sum_map_const_on _ _ _ hval]
      have hlen : (g.edges.filter (fun e => e.1 == j)).length = outDegree g j := rfl
      rw [hlen]
      by_cases hod : outDegree g j = 0
      · simp [hod]
      · rw [if_neg hod]
        have hcast : ((outDegree g j : ℕ) : ℚ) ≠ 0 := Nat.cast_ne_zero.mpr hod
        field_simp
    rw [hA, hB, hC, List.map_congr_left hD]
    have hdm : danglingMass g x = ((List.range g.n).map
        (fun j => if outDegree g j = 0 then x.getD j 0 else 0)).sum := by
      unfold danglingMass
      rw [filter_map_sum_eq_if]
      apply congrArg List.sum
      apply List.map_congr_left
      intro v _
      by_cases hod : outDegree g v = 0
      · simp [hod]
      · simp [hod]
    have hx' : ((List.range g.n).map (fun j => x.getD j 0)).sum = x.sum := by
      rw [← hx]
      exact sum_range_getD x
    have hadd :
        ((List.range g.n).map (fun j => if outDegree g j = 0 then 0 else x.getD j 0)).sum
        + ((List.range g.n).map (fun j => if outDegree g j = 0 then x.getD j 0 else 0)).sum
        = x.sum := by
      rw [← list_sum_map_add, ← hx']
      apply congrArg List.sum
      apply List.map_congr_left
      intro j _
      by_cases hod : outDegree g j = 0
      · simp [hod]
      · simp [hod]
    rw [hdm]
    linarith [hadd]
  rw [hconst, list_sum_map_mul_left, hcontrib, hsum]
  ring

/-- Witness for C5 (amended) on the unit-weight two-cycle. -/
theorem pagerank_mass_preserved_witness :
    ((⟨2, [(0, (1, 1)), (1, (0, 1))]⟩ : Graph).WF ∧
      ([1 / 4, 3 / 4] : List ℚ).sum = 1) ∧
    (pagerankPass ⟨2, [(0, (1, 1)), (1, (0, 1))]⟩ (17 / 20) [1 / 4, 3 / 4]).sum = 1 :=
  ⟨⟨by decide, by with_unfolding_all decide⟩,
    pagerank_mass_preserved ⟨2, [(0, (1, 1)), (1, (0, 1))]⟩ (17 / 20) [1 / 4, 3 / 4]
      (by decide) (by decide) (by decide) (by decide) (by with_unfolding_all decide)⟩

/-! ### Katz contraction and eventual convergence (claim C1) -/

lemma list_sum_map_sub {A : Type} (l : List A) (f g : A → ℚ) :
    (l.map f).sum - (l.map g).sum = (l.map (fun a => f a - g a)).sum := by
  induction l with
  | nil => simp
  | cons a t ih =>
    simp only [List.map_cons, List.sum_cons]
    rw [← ih]
    ring

lemma katzPass_length (g : Graph) (alpha beta : ℚ) (x : List ℚ) :
    (katzPass g alpha beta x).length = g.n := by
  simp [katzPass]

lemma katzPass_iterate_length (g : Graph) (alpha beta : ℚ) (x0 : List ℚ)
    (hx0 : x0.length = g.n) : ∀ k, ((katzPass g alpha beta)^[k] x0).length = g.n := by
  intro k
  cases k with
  | zero => simpa using hx0
  | succ k =>
    rw [Function.iterate_succ_apply']
    exact katzPass_length g alpha beta _

lemma l1dist_nonneg : ∀ x y : List ℚ, 0 ≤ l1dist x y := by
  intro x
  induction x with
  | nil => intro y; cases y <;> simp [l1dist]
  | cons a t ih =>
    intro y
    cases y with
    | nil => simp [l1dist]
    | cons b u =>
      have h := ih u
      unfold l1dist at *
      simp only [List.zipWith_cons_cons, List.sum_cons]
      have := abs_nonneg (a - b)
      linarith

lemma l1dist_eq_range : ∀ (n : ℕ) (x y : List ℚ), x.length = n → y.length = n →
    l1dist x y = ((List.range n).map (fun j => |x.getD j 0 - y.getD j 0|)).sum := by
  intro n
  induction n with
  | zero =>
    intro x y hx hy
    rw [List.length_eq_zero.mp hx, List.length_eq_zero.mp hy]
    simp [l1dist]
  | succ n ih =>
    intro x y hx hy
    cases x with
    | nil => simp at hx
    | cons a t =>
      cases y with
      | nil => simp at hy
      | cons b u =>
        have hx' : t.length = n := by simpa using hx
        have hy' : u.length = n := by simpa using hy
        have hr : List.range (n + 1) = 0 :: (List.range n).map Nat.succ :=
          List.range_succ_eq_map n
        rw [hr]
        simp only [List.map_cons, List.getD_cons_zero, List.map_map, List.sum_cons]
        have hcmp : ((List.range n).map
            ((fun j => |(a :: t).getD j 0 - (b :: u).getD j 0|) ∘ Nat.succ))
            = (List.range n).map (fun j => |t.getD j 0 - u.getD j 0|) := by
          apply List.map_congr_left
          intro j _
          simp [Function.comp, List.getD_cons_succ]
        rw [hcmp, ← ih t u hx' hy']
        unfold l1dist
        simp [List.zipWith_cons_cons]

lemma le_foldl_max_nat (h : ℕ → ℕ) : ∀ (l : List ℕ) (b : ℕ),
    b ≤ l.foldl (fun m v => max m (h v)) b := by
  intro l
  induction l with
  | nil => intro b; simp
  | cons v vs ih =>
    intro b
    exact le_trans (Nat.le_max_left b (h v)) (ih (max b (h v)))

lemma mem_le_foldl_max_nat (h : ℕ → ℕ) : ∀ (l : List ℕ) (b : ℕ), ∀ v ∈ l,
    h v ≤ l.foldl (fun m v => max m (h v)) b := by
  intro l
  induction l with
  | nil => intro b v hv; simp at hv
  | cons w ws ih =>
    intro b v hv
    rcases List.mem_cons.mp hv with h1 | h1
    · subst h1
      exact le_trans (Nat.le_max_right b (h v)) (le_foldl_max_nat h ws (max b (h v)))
    · exact ih (max b (h w)) v h1

lemma outDegree_le_maxOutDegree (g : Graph) (v : ℕ) (hv : v < g.n) :
    outDegree g v ≤ maxOutDegree g :=
  mem_le_foldl_max_nat (outDegree g) (List.range g.n) 0 v (List.mem_range.mpr hv)

lemma list_abs_sum_map_le {A : Type} (l : List A) (h : A → ℚ) :
    |(l.map h).sum| ≤ (l.map (fun a => |h a|)).sum := by
  have hh := list_abs_sum_le (l.map h)
  rw [List.map_map] at hh
  exact hh

lemma katzPass_getD (g : Graph) (alpha beta : ℚ) (x : List ℚ) (i : ℕ) (hi : i < g.n) :
    (katzPass g alpha beta x).getD i 0 = alpha * inContribution g x i + beta := by
  unfold katzPass
  exact getD_map_range _ _ _ hi

lemma katzPass_lipschitz (g : Graph) (alpha beta : ℚ) (x y : List ℚ)
    (hwf : g.WF) (hw : ∀ e ∈ g.edges, e.2.2 = 1) (ha : 0 ≤ alpha)
    (hx : x.length = g.n) (hy : y.length = g.n) :
    l1dist (katzPass g alpha beta x) (katzPass g alpha beta y)
      ≤ alpha * (maxOutDegree g : ℚ) * l1dist x y := by
  have h1 : l1dist (katzPass g alpha beta x) (katzPass g alpha beta y)
      = ((List.range g.n).map (fun i =>
          |(katzPass g alpha beta x).getD i 0 - (katzPass g alpha beta y).getD i 0|)).sum :=
    l1dist_eq_range g.n _ _ (katzPass_length g alpha beta x) (katzPass_length g alpha beta y)
  have h2 : ∀ i ∈ List.range g.n,
      |(katzPass g alpha beta x).getD i 0 - (katzPass g alpha beta y).getD i 0|
      = alpha * |inContribution g x i - inContribution g y i| := by
    intro i hi
    rw [katzPass_getD g alpha beta x i (List.mem_range.mp hi),
      katzPass_getD g alpha beta y i (List.mem_range.mp hi)]
    rw [show alpha * inContribution g x i + beta - (alpha * inContribution g y i + beta)
      = alpha * (inContribution g x i - inContribution g y i) by ring]
    rw [abs_mul, abs_of_nonneg ha]
  have h3 : ∀ i : ℕ, inContribution g x i - inContribution g y i
      = ((g.edges.filter (fun e => e.2.1 == i)).map
          (fun e => e.2.2 * x.getD e.1 0 - e.2.2 * y.getD e.1 0)).sum := by
    intro i
    unfold inContribution
    exact list_sum_map_sub _ _ _
  have h4 : ∀ i ∈ List.range g.n,
      |inContribution g x i - inContribution g y i|
      ≤ ((g.edges.filter (fun e => e.2.1 == i)).map
          (fun e => |x.getD e.1 0 - y.getD e.1 0|)).sum := by
    intro i _
    rw [h3 i]
    refine le_trans (list_abs_sum_map_le _ _) (le_of_eq ?_)
    apply congrArg List.sum
    apply List.map_congr_left
    intro e he
    have hee : e ∈ g.edges := (List.mem_filter.mp he).1
    rw [hw e hee, one_mul, one_mul]
  have h5 : ((List.range g.n).map
      (fun i => |inContribution g x i - inContribution g y i|)).sum
      ≤ ((List.range g.n).map (fun i =>
          ((g.edges.filter (fun e => e.2.1 == i)).map
            (fun e => |x.getD e.1 0 - y.getD e.1 0|)).sum)).sum :=
    List.sum_le_sum h4
  have h6 : ((List.range g.n).map (fun i =>
      ((g.edges.filter (fun e => e.2.1 == i)).map
        (fun e => |x.getD e.1 0 - y.getD e.1 0|)).sum)).sum
      = (g.edges.map (fun e => |x.getD e.1 0 - y.getD e.1 0|)).sum :=
    sum_range_filter_eq (fun e => e.2.1) _ g.n g.edges (fun e he => (hwf e he).2)
  have h7 : (g.edges.map (fun e => |x.getD e.1 0 - y.getD e.1 0|)).sum
      = ((List.range g.n).map (fun j =>
          ((g.edges.filter (fun e => e.1 == j)).map
            (fun e => |x.getD e.1 0 - y.getD e.1 0|)).sum)).sum :=
    (sum_range_filter_eq (fun e => e.1) _ g.n g.edges (fun e he => (hwf e he).1)).symm
  have h8 : ∀ j ∈ List.range g.n,
      ((g.edges.filter (fun e => e.1 == j)).map
        (fun e => |x.getD e.1 0 - y.getD e.1 0|)).sum
      = (outDegree g j : ℚ) * |x.getD j 0 - y.getD j 0| := by
    intro j _
    have hval : ∀ e ∈ g.edges.filter (fun e => e.1 == j),
        |x.getD e.1 0 - y.getD e.1 0| = |x.getD j 0 - y.getD j 0| := by
      intro e he
      have hej : e.1 = j := by simpa using (List.mem_filter.mp he).2
      rw [hej]
    rw [list_sum_map_const_on _ _ _ hval]
    rw [show (g.edges.filter (fun e => e.1 == j)).length = outDegree g j from rfl]
  have h9 : ∀ j ∈ List.range g.n,
      (outDegree g j : ℚ) * |x.getD j 0 - y.getD j 0|
      ≤ (maxOutDegree g : ℚ) * |x.getD j 0 - y.getD j 0| := by
    intro j hj
    apply mul_le_mul_of_nonneg_right _ (abs_nonneg _)
    exact_mod_cast outDegree_le_maxOutDegree g j (List.mem_range.mp hj)
  calc l1dist (katzPass g alpha beta x) (katzPass g alpha beta y)
      = alpha * ((List.range g.n).map
          (fun i => |inContribution g x i - inContribution g y i|)).sum := by
        rw [h1, List.map_congr_left h2, list_sum_map_mul_left]
    _ ≤ alpha * ((List.range g.n).map (fun i =>
          ((g.edges.filter (fun e => e.2.1 == i)).map
            (fun e => |x.getD e.1 0 - y.getD e.1 0|)).sum)).sum :=
        mul_le_mul_of_nonneg_left h5 ha
    _ = alpha * ((List.range g.n).map (fun j =>
          ((g.edges.filter (fun e => e.1 == j)).map
            (fun e => |x.getD e.1 0 - y.getD e.1 0|)).sum)).sum := by
        rw [h6, h7]
    _ = alpha * ((List.range g.n).map
          (fun j => (outDegree g j : ℚ) * |x.getD j 0 - y.getD j 0|)).sum := by
        rw [List.map_congr_left h8]
    _ ≤ alpha * ((List.range g.n).map
          (fun j => (maxOutDegree g : ℚ) * |x.getD j 0 - y.getD j 0|)).sum :=
        mul_le_mul_of_nonneg_left (List.sum_le_sum h9) ha
    _ = alpha * ((maxOutDegree g : ℚ) * ((List.range g.n).map
          (fun j => |x.getD j 0 - y.getD j 0|)).sum) := by
        rw [list_sum_map_mul_left]
    _ = alpha * (maxOutDegree g : ℚ) * l1dist x y := by
        rw [← l1dist_eq_range g.n x y hx hy]
        ring

lemma katz_delta_le_pow (g : Graph) (alpha beta : ℚ) (x0 : List ℚ)
    (hwf : g.WF) (hw : ∀ e ∈ g.edges, e.2.2 = 1) (ha : 0 ≤ alpha)
    (hx0 : x0.length = g.n) :
    ∀ k, l1dist ((katzPass g alpha beta)^[k + 1] x0) ((katzPass g alpha beta)^[k] x0)
      ≤ (alpha * (maxOutDegree g : ℚ)) ^ k * l1dist (katzPass g alpha beta x0) x0 := by
  intro k
  induction k with
  | zero =>
    simp
  | succ k ih =>
    have hstep := katzPass_lipschitz g alpha beta
      ((katzPass g alpha beta)^[k + 1] x0) ((katzPass g alpha beta)^[k] x0)
      hwf hw ha
      (katzPass_iterate_length g alpha beta x0 hx0 (k + 1))
      (katzPass_iterate_length g alpha beta x0 hx0 k)
    rw [← Function.iterate_succ_apply' (katzPass g alpha beta) (k + 1) x0,
      ← Function.iterate_succ_apply' (katzPass g alpha beta) k x0] at hstep
    have hr0 : 0 ≤ alpha * (maxOutDegree g : ℚ) := mul_nonneg ha (Nat.cast_nonneg _)
    calc l1dist ((katzPass g alpha beta)^[k + 1 + 1] x0) ((katzPass g alpha beta)^[k + 1] x0)
        ≤ alpha * (maxOutDegree g : ℚ)
          * l1dist ((katzPass g alpha beta)^[k + 1] x0) ((katzPass g alpha beta)^[k] x0) :=
          hstep
      _ ≤ alpha * (maxOutDegree g : ℚ)
          * ((alpha * (maxOutDegree g : ℚ)) ^ k * l1dist (katzPass g alpha beta x0) x0) :=
          mul_le_mul_of_nonneg_left ih hr0
      _ = (alpha * (maxOutDegree g : ℚ)) ^ (k + 1)
          * l1dist (katzPass g alpha beta x0) x0 := by
          ring

/-- Claim C1 (amended): for a well-formed graph with unit edge weights, at
least 34 vertices, and alpha * max_out_degree < 1, the Katz solver converges
within max_iter iterations for some sufficiently large max_iter (eventual
termination); the fixed iteration cap of the notebooks (100) is not enough
for all such graphs, as the separate counterexample shows. -/
theorem katz_eventual_convergence (g : Graph) (alpha beta tol : ℚ)
    (hwf : g.WF) (hw : ∀ e ∈ g.edges, e.2.2 = 1) (ha : 0 < alpha)
    (hr : alpha * (maxOutDegree g : ℚ) < 1) (ht : 0 < tol) (hn : 34 ≤ g.n) :
    ∃ K : ℤ, 0 < K ∧ solverIsOk (compute_katz g alpha beta K tol none) = true := by
  have hx0 : (List.replicate g.n (0 : ℚ)).length = g.n := List.length_replicate _ _
  have hr0 : 0 ≤ alpha * (maxOutDegree g : ℚ) := mul_nonneg ha.le (Nat.cast_nonneg _)
  have hd0 : 0 ≤ l1dist (katzPass g alpha beta (List.replicate g.n 0))
      (List.replicate g.n 0) := l1dist_nonneg _ _
  have hnq : (0 : ℚ) < (g.n : ℚ) := by
    have hn0 : (0 : ℕ) < g.n := by omega
    exact_mod_cast hn0
  have hnt : 0 < (g.n : ℚ) * tol := mul_pos hnq ht
  have hdpos : (0 : ℚ) < l1dist (katzPass g alpha beta (List.replicate g.n 0))
      (List.replicate g.n 0) + 1 := by linarith
  have hdiv : 0 < ((g.n : ℚ) * tol) /
      (l1dist (katzPass g alpha beta (List.replicate g.n 0)) (List.replicate g.n 0) + 1) :=
    div_pos hnt hdpos
  obtain ⟨N, hN⟩ := exists_pow_lt_of_lt_one hdiv hr
  have hstepN : stepConverged (katzPass g alpha beta) g.n tol (List.replicate g.n 0) N := by
    unfold stepConverged
    have h1 := katz_delta_le_pow g alpha beta (List.replicate g.n 0) hwf hw ha.le hx0 N
    have h2 : (alpha * (maxOutDegree g : ℚ)) ^ N *
        (l1dist (katzPass g alpha beta (List.replicate g.n 0)) (List.replicate g.n 0) + 1)
        < (g.n : ℚ) * tol := by
      have h2a := mul_lt_mul_of_pos_right hN hdpos
      rwa [div_mul_cancel₀ _ (ne_of_gt hdpos)] at h2a
    have h3 : (alpha * (maxOutDegree g : ℚ)) ^ N *
        l1dist (katzPass g alpha beta (List.replicate g.n 0)) (List.replicate g.n 0)
        ≤ (alpha * (maxOutDegree g : ℚ)) ^ N *
          (l1dist (katzPass g alpha beta (List.replicate g.n 0)) (List.replicate g.n 0) + 1) :=
      mul_le_mul_of_nonneg_left (by linarith) (pow_nonneg hr0 N)
    linarith
  refine ⟨(N : ℤ) + 1, by omega, ?_⟩
  have hval : ¬ (alpha ≤ 0 ∨ ((N : ℤ) + 1) ≤ 0 ∨ tol ≤ 0) := by
    push_neg
    refine ⟨ha, by omega, ht⟩
  simp only [compute_katz]
  rw [if_neg hval]
  simp only [Option.getD_none]
  rw [solverLoop_isOk_iff]
  exact ⟨N, by omega, hstepN⟩

set_option maxRecDepth 40000 in
/-- Witness for C1 (amended) at the unit-weight 34-cycle with alpha = 1/2. -/
theorem katz_eventual_convergence_witness :
    (cycle34.WF ∧ (∀ e ∈ cycle34.edges, e.2.2 = 1) ∧ (0 : ℚ) < 1 / 2 ∧
      (1 / 2 : ℚ) * (maxOutDegree cycle34 : ℚ) < 1 ∧ (0 : ℚ) < 1 / 100000 ∧
      34 ≤ cycle34.n) ∧
    ∃ K : ℤ, 0 < K ∧ solverIsOk (compute_katz cycle34 (1 / 2) 1 K (1 / 100000) none) = true :=
  ⟨⟨by decide, by with_unfolding_all decide, by with_unfolding_all decide,
      by with_unfolding_all decide, by with_unfolding_all decide, by decide⟩,
    katz_eventual_convergence cycle34 (1 / 2) 1 (1 / 100000) (by decide)
      (by with_unfolding_all decide) (by with_unfolding_all decide)
      (by with_unfolding_all decide) (by with_unfolding_all decide) (by decide)⟩

set_option maxRecDepth 200000 in
set_option maxHeartbeats 8000000 in
/-- Counterexample to C1 as stated: the 34-vertex directed cycle has
max_out_degree 1, so alpha = 9/10 satisfies alpha < 1/max_out_degree
strictly, yet compute_katz at tol = 1e-5 does not converge within the
notebooks' iteration cap max_iter = 100 (the L1 delta of pass k is
34 * (9/10)^(k-1), still above 34e-5 at pass 100). -/
theorem katz_cycle34_not_converged_at_100 :
    cycle34.n = 34 ∧
    maxOutDegree cycle34 = 1 ∧
    (9 / 10 : ℚ) < 1 / (maxOutDegree cycle34 : ℚ) ∧
    solverIsOk (compute_katz cycle34 (9 / 10) 1 100 (1 / 100000) none) = false :=
  ⟨rfl, by decide, by with_unfolding_all decide, by with_unfolding_all decide⟩
